import Mathlib

/-!
Shallow embedding of `main.go` from the `go_practical_concurrency_demo`
repository.

Text is modelled as `List Nat` (one `Nat` per byte).  The four regexp
rewrites of `formatText` are modelled as executable scans with the
leftmost, non-overlapping, greedy semantics of Go's `regexp` package
(`\s` is the RE2 class `[\t\n\f\r ]`, i.e. bytes 9, 10, 12, 13, 32):

* `collapseNN`   models `re.ReplaceAll(data, "\n")`   for `\n\n`,
* `stripLeading` models `re.ReplaceAll(data, "")`     for `^\s+`,
* `stripIndent`  models `re.ReplaceAll(data, "\n")`   for `\n\s+`,
* `joinLines`    models `re.ReplaceAll(data, " ")`    for `\s*\n`.

The chunking loop of `formatText` (lines 97-111 of `main.go`) is modelled
by `chunkGoLoop`/`chunkGo`; a Go slice expression `data[i:j]` is modelled
by `goSlice`, which returns `none` (a slice-bounds panic) when `j`
exceeds the length of `data`.  The channel / goroutine structure of
`main` is modelled as a transition system `ChanStep` over `ChanRun`
states.
-/

/-- RE2 whitespace class `\s = [\t\n\f\r ]`: bytes 9, 10, 12, 13 and 32. -/
def isSpace (b : Nat) : Bool :=
  b = 9 || b = 10 || b = 12 || b = 13 || b = 32

/-- One left-to-right non-overlapping pass replacing `\n\n` by `\n`
(line 82 of `main.go`: `re.ReplaceAll(data, []byte("\n"))` for `\n\n`). -/
def collapseNN : List Nat → List Nat
  | [] => []
  | [b] => [b]
  | b :: c :: rest =>
      if b = 10 ∧ c = 10 then 10 :: collapseNN rest
      else b :: collapseNN (c :: rest)

/-- Replacing the anchored `^\s+` by the empty string removes the maximal
leading whitespace run (line 87 of `main.go`). -/
def stripLeading (l : List Nat) : List Nat :=
  l.dropWhile isSpace

/-- Scanner for the `\n\s+ -> \n` pass.  The `Bool` mode records whether the
scanner sits directly behind an emitted `\n` whose greedy whitespace run is
still being consumed (line 91 of `main.go`). -/
def stripIndentM : Bool → List Nat → List Nat
  | _, [] => []
  | false, b :: rest =>
      if b = 10 then 10 :: stripIndentM true rest
      else b :: stripIndentM false rest
  | true, b :: rest =>
      if isSpace b then stripIndentM true rest
      else b :: stripIndentM false rest

/-- The `\n\s+ -> \n` rewrite (line 91 of `main.go`). -/
def stripIndent (l : List Nat) : List Nat :=
  stripIndentM false l

/-- Does the list contain a line terminator byte? -/
def hasNL : List Nat → Bool
  | [] => false
  | b :: rest => b = 10 || hasNL rest

/-- The part of a whitespace run strictly after its last `\n`. -/
def afterLastNL (run : List Nat) : List Nat :=
  (run.reverse.takeWhile (fun b => b != 10)).reverse

/-- Flush a buffered maximal whitespace run for the `\s*\n -> " "` pass:
a greedy leftmost match consumes the run up to and including its last
`\n` and is replaced by one space; a run without `\n` is no match and is
emitted literally. -/
def flushRun (run : List Nat) : List Nat :=
  if hasNL run then 32 :: afterLastNL run else run

/-- Scanner for the `\s*\n -> " "` rewrite; the first argument buffers the
whitespace run currently being read. -/
def joinLinesAux : List Nat → List Nat → List Nat
  | run, [] => flushRun run
  | run, b :: rest =>
      if isSpace b then joinLinesAux (run ++ [b]) rest
      else flushRun run ++ b :: joinLinesAux [] rest

/-- The `\s*\n -> " "` rewrite (line 95 of `main.go`). -/
def joinLines (l : List Nat) : List Nat :=
  joinLinesAux [] l

/-- The whole normalization pipeline of `formatText` (lines 79-95 of
`main.go`), applied in source order. -/
def normalizeGo (data : List Nat) : List Nat :=
  joinLines (stripIndent (stripLeading (collapseNN data)))

/-- Go slice expression `data[i:j]`: defined when `i ≤ j ≤ len(data)`,
a slice-bounds panic (`none`) otherwise. -/
def goSlice (data : List Nat) (i j : Nat) : Option (List Nat) :=
  if i ≤ j ∧ j ≤ data.length then some ((data.drop i).take (j - i)) else none

/-- The chunking loop of `formatText` (lines 99-107 of `main.go`):

    i, j := 0, 70
    for k := 0; k < len(intermediate); k++ {
      intermediate[k] = data[i:j]
      i += 70
      j += 70
      if j >= len(data) { break }
    }

`fuel` bounds the remaining iterations; callers pass `len(intermediate)`,
which the loop counter `k` can never exceed, so running out of fuel
coincides with the loop condition `k < len(intermediate)` failing. -/
def chunkGoLoop (data : List Nat) :
    Nat → List (List Nat) → Nat → Nat → Nat → Option (List (List Nat) × Nat)
  | 0, arr, i, _, _ => some (arr, i)
  | fuel + 1, arr, i, j, k =>
      if k < arr.length then
        match goSlice data i j with
        | none => none
        | some s =>
            if j + 70 ≥ data.length then some (arr.set k s, i + 70)
            else chunkGoLoop data fuel (arr.set k s) (i + 70) (j + 70) (k + 1)
      else some (arr, i)

/-- The whole chunking step of `formatText` (lines 98-108 of `main.go`):
`intermediate := make([][]byte, 1+len(data)/70)`, the loop above, then
`intermediate[len(intermediate)-1] = data[i:len(data)]`.  `none` models a
slice-bounds panic. -/
def chunkGo (data : List Nat) : Option (List (List Nat)) :=
  let size := 1 + data.length / 70
  match chunkGoLoop data size (List.replicate size []) 0 70 0 with
  | none => none
  | some (arr, i) =>
      match goSlice data i data.length with
      | none => none
      | some last => some (arr.set (size - 1) last)

/-- `bytes.Join(intermediate, []byte("\n"))` (line 111 of `main.go`). -/
def goJoin (chunks : List (List Nat)) : List Nat :=
  List.intercalate [10] chunks

/-- The pure data transformation performed by `formatText` on the bytes it
read: normalization, chunking, joining.  `none` models the slice-bounds
panic of the chunking loop. -/
def formatTextData (data : List Nat) : Option (List Nat) :=
  (chunkGo (normalizeGo data)).map goJoin

/-- `must` (lines 68-72 of `main.go`): panics with the error when it is
non-nil, modelled as `Except`. -/
def must (e : Option String) : Except String Unit :=
  match e with
  | some err => Except.error err
  | none => Except.ok ()

/-- The output path computed by `writeFormattedText` (line 119 of
`main.go`): `fmt.Sprintf("tmp/%d.txt", len(data))`. -/
def outPath (data : List Nat) : String :=
  "tmp/" ++ toString data.length ++ ".txt"

/-- Externally observable actions of `writeFormattedText`. -/
inductive OutEvent where
  | consoleReport (n : Nat)
  | fileWrite (path : String)
deriving DecidableEq

/-- `writeFormattedText` (lines 117-122 of `main.go`): it prints
`"Writing file of length: %v"` with `len(data)`, then attempts
`ioutil.WriteFile`, then `must(err)`.  The parameter `writeErr` is the
outcome of the write; the result is the ordered list of observable
events together with the run outcome. -/
def writeFormattedText (data : List Nat) (writeErr : Option String) :
    List OutEvent × Except String Unit :=
  ([OutEvent.consoleReport data.length, OutEvent.fileWrite (outPath data)],
   must writeErr)

/-- Ways a run of this program can fail. -/
inductive RunFailure where
  | ioFailure (description : String)
  | boundsPanic
deriving DecidableEq

/-- The failure skeleton of `formatText` (lines 74-115 of `main.go`):
`ioutil.ReadFile` followed by `must(err)` makes a read error fatal and
surfaces its description; on a successful read the pure transformation
runs, whose only failure mode is the slice-bounds panic of the chunking
loop.  (The four `regexp.Compile` calls receive constant valid patterns
and never return an error, so their `must` calls never fire.) -/
def formatText (readResult : Except String (List Nat)) :
    Except RunFailure (List Nat) :=
  match readResult with
  | Except.error e => Except.error (RunFailure.ioFailure e)
  | Except.ok data =>
      match formatTextData data with
      | none => Except.error RunFailure.boundsPanic
      | some r => Except.ok r

/-- State of the fan-out/fan-in run of `main` (lines 124-145 of
`main.go`): `cap` is the buffer capacity the channel was created with
(`make(chan []byte, len(eldritchTexts))`); `pending` holds the formatted
results of the producer goroutines that have not yet executed their
single `hplCh <- result`; `buffer` is the channel's FIFO buffer; `sent`
and `received` record the enqueue and dequeue histories in order. -/
structure ChanRun (α : Type) where
  cap : Nat
  pending : List α
  buffer : List α
  sent : List α
  received : List α
deriving DecidableEq

/-- Initial state of `main` for a list of inputs: the channel is created
with capacity equal to the number of inputs, one producer per input is
spawned, nothing has been enqueued or dequeued. -/
def initRun {α : Type} (items : List α) : ChanRun α :=
  ⟨items.length, items, [], [], []⟩

/-- Interleaving semantics of `main`: any pending producer may finish and
enqueue its one result (goroutines complete in arbitrary order); the
single collector dequeues the FIFO head, but only while its loop bound
`i < len(eldritchTexts)` (modelled via `cap`) allows. -/
inductive ChanStep {α : Type} [DecidableEq α] : ChanRun α → ChanRun α → Prop where
  | send (s : ChanRun α) (x : α) (hx : x ∈ s.pending) :
      ChanStep s ⟨s.cap, s.pending.erase x, s.buffer ++ [x],
                  s.sent ++ [x], s.received⟩
  | recv (s : ChanRun α) (x : α) (rest : List α)
      (hb : s.buffer = x :: rest) (hn : s.received.length < s.cap) :
      ChanStep s ⟨s.cap, s.pending, rest, s.sent, s.received ++ [x]⟩

/-- States reachable during a run of `main` on the given inputs. -/
def ChanReach {α : Type} [DecidableEq α] (items : List α) (s : ChanRun α) : Prop :=
  Relation.ReflTransGen ChanStep (initRun items) s

/-- A text contains a blank line: two adjacent line terminator bytes. -/
def hasBlank : List Nat → Bool
  | [] => false
  | [_] => false
  | b :: c :: rest => (b = 10 && c = 10) || hasBlank (c :: rest)

/-- A text contains a run of three or more adjacent line terminators. -/
def hasTripleNL : List Nat → Bool
  | [] => false
  | [_] => false
  | [_, _] => false
  | b :: c :: d :: rest => (b = 10 && c = 10 && d = 10) || hasTripleNL (c :: d :: rest)

/-- Bytes of a string, for writing concrete inputs readably. -/
def strBytes (s : String) : List Nat :=
  s.toList.map Char.toNat

/-- A list ends in a byte outside the RE2 whitespace class. -/
def EndsNonWs (l : List Nat) : Prop :=
  ∃ z c, l = z ++ [c] ∧ isSpace c = false

theorem collapseNN_cons_ne10 (a : Nat) (l : List Nat) (ha : a ≠ 10) :
    collapseNN (a :: l) = a :: collapseNN l := by
  cases l with
  | nil => rfl
  | cons c rest =>
    rw [collapseNN, if_neg]
    intro h
    exact ha h.1

theorem collapseNN_head (a : Nat) (l : List Nat) :
    ∃ t, collapseNN (a :: l) = a :: t := by
  cases l with
  | nil => exact ⟨[], rfl⟩
  | cons c rest =>
    by_cases h : a = 10 ∧ c = 10
    · exact ⟨collapseNN rest, by rw [collapseNN, if_pos h, h.1]⟩
    · exact ⟨collapseNN (c :: rest), by rw [collapseNN, if_neg h]⟩

theorem hasTripleNL_tail (x : Nat) (xs : List Nat)
    (h : hasTripleNL (x :: xs) = false) : hasTripleNL xs = false := by
  match xs with
  | [] => rfl
  | [_] => rfl
  | y :: z :: w =>
    rw [hasTripleNL] at h
    exact (Bool.or_eq_false_iff.mp h).2

theorem collapseNN_no_blank (l : List Nat) (h : hasTripleNL l = false) :
    hasBlank (collapseNN l) = false := by
  induction l using collapseNN.induct with
  | case1 => rfl
  | case2 b => rfl
  | case3 b c rest hbc ih =>
    rw [collapseNN, if_pos hbc]
    match rest with
    | [] => rfl
    | d :: rest2 =>
      obtain ⟨t, ht⟩ := collapseNN_head d rest2
      rw [ht]
      have hd : d ≠ 10 := by
        rw [hbc.1, hbc.2] at h
        rw [hasTripleNL] at h
        intro hd10
        simp [hd10] at h
      have htr : hasTripleNL (d :: rest2) = false := by
        rw [hbc.1, hbc.2] at h
        rw [hasTripleNL] at h
        have := (Bool.or_eq_false_iff.mp h).2
        exact hasTripleNL_tail 10 (d :: rest2) this
      have := ih htr
      rw [ht] at this
      rw [hasBlank]
      simp only [Bool.or_eq_false_iff]
      constructor
      · simp [hd]
      · exact this
  | case4 b c rest hbc ih =>
    rw [collapseNN, if_neg hbc]
    obtain ⟨t, ht⟩ := collapseNN_head c rest
    rw [ht, hasBlank]
    simp only [Bool.or_eq_false_iff]
    have hnb : ¬ (b = 10 ∧ c = 10) := hbc
    have htail : hasTripleNL (c :: rest) = false := hasTripleNL_tail b _ h
    have := ih htail
    rw [ht] at this
    constructor
    · by_cases hb10 : b = 10
      · by_cases hc10 : c = 10
        · exact absurd ⟨hb10, hc10⟩ hnb
        · simp [hc10]
      · simp [hb10]
    · exact this

theorem endsNonWs_ne_nil (l : List Nat) (h : EndsNonWs l) : l ≠ [] := by
  obtain ⟨z, c, rfl, -⟩ := h
  simp

theorem endsNonWs_cons (a : Nat) (l : List Nat) (h : EndsNonWs (a :: l)) :
    (l = [] ∧ isSpace a = false) ∨ EndsNonWs l := by
  obtain ⟨z, c, hz, hc⟩ := h
  cases z with
  | nil =>
    simp only [List.nil_append, List.cons.injEq] at hz
    exact Or.inl ⟨hz.2, hz.1 ▸ hc⟩
  | cons a2 z2 =>
    simp only [List.cons_append, List.cons.injEq] at hz
    exact Or.inr ⟨z2, c, hz.2, hc⟩

theorem endsNonWs_cons_of (a : Nat) (l : List Nat) (h : EndsNonWs l) :
    EndsNonWs (a :: l) := by
  obtain ⟨z, c, rfl, hc⟩ := h
  exact ⟨a :: z, c, rfl, hc⟩

theorem endsNonWs_singleton (a : Nat) (h : isSpace a = false) :
    EndsNonWs [a] :=
  ⟨[], a, rfl, h⟩

theorem isSpace_false_ne10 {a : Nat} (h : isSpace a = false) : a ≠ 10 := by
  intro h10
  rw [h10] at h
  simp [isSpace] at h

theorem collapseNN_append (u w : List Nat) (hu : EndsNonWs u) :
    collapseNN (u ++ w) = collapseNN u ++ collapseNN w := by
  induction u using collapseNN.induct with
  | case1 => exact absurd rfl (endsNonWs_ne_nil _ hu)
  | case2 b =>
    rcases endsNonWs_cons b [] hu with ⟨-, hb⟩ | h2
    · rw [List.singleton_append,
        collapseNN_cons_ne10 b w (isSpace_false_ne10 hb)]
      rfl
    · exact absurd rfl (endsNonWs_ne_nil _ h2)
  | case3 b c rest hbc ih =>
    have hrest : EndsNonWs rest := by
      rcases endsNonWs_cons b _ hu with ⟨h1, -⟩ | h2
      · exact absurd h1 (by simp)
      · rcases endsNonWs_cons c _ h2 with ⟨h3, hc⟩ | h4
        · rw [hbc.2] at hc
          simp [isSpace] at hc
        · exact h4
    rw [List.cons_append, List.cons_append, collapseNN, if_pos hbc,
      collapseNN, if_pos hbc, ih hrest, List.cons_append]
  | case4 b c rest hbc ih =>
    have hcr : EndsNonWs (c :: rest) := by
      rcases endsNonWs_cons b _ hu with ⟨h1, -⟩ | h2
      · exact absurd h1 (by simp)
      · exact h2
    rw [List.cons_append, List.cons_append, collapseNN, if_neg hbc,
      collapseNN, if_neg hbc, ← List.cons_append, ih hcr, List.cons_append]

theorem collapseNN_no10_append (r w : List Nat) (hr : ∀ b ∈ r, b ≠ 10) :
    collapseNN (r ++ w) = r ++ collapseNN w := by
  induction r with
  | nil => rfl
  | cons a r2 ih =>
    have ha : a ≠ 10 := hr a (by simp)
    rw [List.cons_append, collapseNN_cons_ne10 a _ ha,
      ih (fun b hb => hr b (by simp [hb])), List.cons_append]

theorem collapseNN_endsNonWs (l : List Nat) (h : EndsNonWs l) :
    EndsNonWs (collapseNN l) := by
  induction l using collapseNN.induct with
  | case1 => exact absurd rfl (endsNonWs_ne_nil _ h)
  | case2 b =>
    rcases endsNonWs_cons b [] h with ⟨-, hb⟩ | h2
    · exact endsNonWs_singleton b hb
    · exact absurd rfl (endsNonWs_ne_nil _ h2)
  | case3 b c rest hbc ih =>
    have hrest : EndsNonWs rest := by
      rcases endsNonWs_cons b _ h with ⟨h1, -⟩ | h2
      · exact absurd h1 (by simp)
      · rcases endsNonWs_cons c _ h2 with ⟨h3, hc⟩ | h4
        · rw [hbc.2] at hc
          simp [isSpace] at hc
        · exact h4
    rw [collapseNN, if_pos hbc]
    exact endsNonWs_cons_of _ _ (ih hrest)
  | case4 b c rest hbc ih =>
    have hcr : EndsNonWs (c :: rest) := by
      rcases endsNonWs_cons b _ h with ⟨h1, -⟩ | h2
      · exact absurd h1 (by simp)
      · exact h2
    rw [collapseNN, if_neg hbc]
    exact endsNonWs_cons_of _ _ (ih hcr)

theorem dropWhile_ne_nil_of_endsNonWs (l : List Nat) (h : EndsNonWs l) :
    l.dropWhile isSpace ≠ [] := by
  obtain ⟨z, c, rfl, hc⟩ := h
  intro hnil
  rw [List.dropWhile_eq_nil_iff] at hnil
  have := hnil c (by simp)
  rw [this] at hc
  exact absurd hc (by simp)

theorem stripLeading_append (l t : List Nat) (h : EndsNonWs l) :
    stripLeading (l ++ t) = stripLeading l ++ t := by
  unfold stripLeading
  rw [List.dropWhile_append, if_neg]
  simp only [List.isEmpty_iff]
  exact dropWhile_ne_nil_of_endsNonWs l h

theorem stripLeading_endsNonWs (l : List Nat) (h : EndsNonWs l) :
    EndsNonWs (stripLeading l) := by
  obtain ⟨z, c, rfl, hc⟩ := h
  unfold stripLeading
  rw [List.dropWhile_append]
  by_cases hz : (z.dropWhile isSpace).isEmpty = true
  · rw [if_pos hz]
    rw [List.dropWhile_cons, if_neg (by simp [hc])]
    exact endsNonWs_singleton c hc
  · rw [if_neg hz]
    refine ⟨z.dropWhile isSpace, c, rfl, hc⟩

theorem stripLeading_cons_nonWs (d : Nat) (l : List Nat) (hd : isSpace d = false) :
    stripLeading (d :: l) = d :: l := by
  unfold stripLeading
  rw [List.dropWhile_cons, if_neg (by simp [hd])]

theorem stripIndentM_append (u : List Nat) : ∀ (mo : Bool) (w : List Nat),
    EndsNonWs u →
    stripIndentM mo (u ++ w) = stripIndentM mo u ++ stripIndentM false w := by
  induction u with
  | nil => intro mo w h; exact absurd rfl (endsNonWs_ne_nil _ h)
  | cons b rest ih =>
    intro mo w h
    rcases endsNonWs_cons b rest h with ⟨hrest, hb⟩ | h2
    · subst hrest
      have hb10 : b ≠ 10 := isSpace_false_ne10 hb
      cases mo with
      | false =>
        rw [List.singleton_append, stripIndentM, if_neg hb10, stripIndentM,
          if_neg hb10]
        rfl
      | true =>
        rw [List.singleton_append, stripIndentM, if_neg (by simp [hb]),
          stripIndentM, if_neg (by simp [hb])]
        rfl
    · cases mo with
      | false =>
        by_cases hb10 : b = 10
        · rw [List.cons_append, stripIndentM, if_pos hb10, stripIndentM,
            if_pos hb10, ih true w h2, List.cons_append]
        · rw [List.cons_append, stripIndentM, if_neg hb10, stripIndentM,
            if_neg hb10, ih false w h2, List.cons_append]
      | true =>
        by_cases hbs : isSpace b = true
        · rw [List.cons_append, stripIndentM, if_pos hbs, stripIndentM,
            if_pos hbs, ih true w h2]
        · rw [List.cons_append, stripIndentM, if_neg hbs, stripIndentM,
            if_neg hbs, ih false w h2, List.cons_append]

theorem stripIndentM_no10_append (r : List Nat) (w : List Nat)
    (hr : ∀ b ∈ r, b ≠ 10) :
    stripIndentM false (r ++ w) = r ++ stripIndentM false w := by
  induction r with
  | nil => rfl
  | cons a r2 ih =>
    have ha : a ≠ 10 := hr a (by simp)
    rw [List.cons_append, stripIndentM, if_neg ha,
      ih (fun b hb => hr b (by simp [hb])), List.cons_append]

theorem stripIndentM_endsNonWs (l : List Nat) : ∀ (mo : Bool),
    EndsNonWs l → EndsNonWs (stripIndentM mo l) := by
  induction l with
  | nil => intro mo h; exact absurd rfl (endsNonWs_ne_nil _ h)
  | cons b rest ih =>
    intro mo h
    rcases endsNonWs_cons b rest h with ⟨hrest, hb⟩ | h2
    · subst hrest
      have hb10 : b ≠ 10 := isSpace_false_ne10 hb
      cases mo with
      | false =>
        rw [stripIndentM, if_neg hb10]
        exact endsNonWs_singleton b hb
      | true =>
        rw [stripIndentM, if_neg (by simp [hb])]
        exact endsNonWs_singleton b hb
    · cases mo with
      | false =>
        by_cases hb10 : b = 10
        · rw [stripIndentM, if_pos hb10]
          exact endsNonWs_cons_of _ _ (ih true h2)
        · rw [stripIndentM, if_neg hb10]
          exact endsNonWs_cons_of _ _ (ih false h2)
      | true =>
        by_cases hbs : isSpace b = true
        · rw [stripIndentM, if_pos hbs]
          exact ih true h2
        · rw [stripIndentM, if_neg hbs]
          exact endsNonWs_cons_of _ _ (ih false h2)

theorem stripIndentM_cons_nonWs (d : Nat) (l : List Nat)
    (hd : isSpace d = false) :
    stripIndentM false (d :: l) = d :: stripIndentM false l := by
  rw [stripIndentM, if_neg (isSpace_false_ne10 hd)]

theorem hasNL_eq_false (l : List Nat) (h : ∀ b ∈ l, b ≠ 10) :
    hasNL l = false := by
  induction l with
  | nil => rfl
  | cons a r ih =>
    rw [hasNL]
    simp only [Bool.or_eq_false_iff]
    exact ⟨by simpa using h a (by simp), ih (fun b hb => h b (by simp [hb]))⟩

theorem flushRun_no10 (run : List Nat) (h : ∀ b ∈ run, b ≠ 10) :
    flushRun run = run := by
  rw [flushRun, if_neg]
  rw [hasNL_eq_false run h]
  simp

theorem joinLinesAux_append (u : List Nat) : ∀ (run w : List Nat),
    EndsNonWs u →
    joinLinesAux run (u ++ w) = joinLinesAux run u ++ joinLinesAux [] w := by
  induction u with
  | nil => intro run w h; exact absurd rfl (endsNonWs_ne_nil _ h)
  | cons b rest ih =>
    intro run w h
    rcases endsNonWs_cons b rest h with ⟨hrest, hb⟩ | h2
    · subst hrest
      rw [List.singleton_append, joinLinesAux, if_neg (by simp [hb]),
        joinLinesAux, if_neg (by simp [hb])]
      have h0 : joinLinesAux [] ([] : List Nat) = [] := rfl
      rw [h0]
      simp
    · by_cases hbs : isSpace b = true
      · rw [List.cons_append, joinLinesAux, if_pos hbs, joinLinesAux,
          if_pos hbs, ih (run ++ [b]) w h2]
      · rw [List.cons_append, joinLinesAux, if_neg hbs, joinLinesAux,
          if_neg hbs, ih [] w h2]
        simp

theorem joinLinesAux_wsrun (r : List Nat) : ∀ (run : List Nat) (d : Nat)
    (w : List Nat),
    (∀ b ∈ r, isSpace b = true ∧ b ≠ 10) →
    (∀ b ∈ run, b ≠ 10) →
    isSpace d = false →
    joinLinesAux run (r ++ d :: w) = (run ++ r) ++ d :: joinLinesAux [] w := by
  induction r with
  | nil =>
    intro run d w hr hrun hd
    rw [List.nil_append, joinLinesAux, if_neg (by simp [hd]),
      flushRun_no10 run hrun, List.append_nil]
  | cons a r2 ih =>
    intro run d w hr hrun hd
    have ha : isSpace a = true ∧ a ≠ 10 := hr a (by simp)
    rw [List.cons_append, joinLinesAux, if_pos ha.1,
      ih (run ++ [a]) d w (fun b hb => hr b (by simp [hb]))
        (by
          intro b hb
          rcases List.mem_append.mp hb with h1 | h2
          · exact hrun b h1
          · simp only [List.mem_singleton] at h2
            exact h2 ▸ ha.2)
        hd]
    simp

theorem joinLines_cons_nonWs (d : Nat) (l : List Nat) (hd : isSpace d = false) :
    joinLines (d :: l) = d :: joinLinesAux [] l := by
  unfold joinLines
  rw [joinLinesAux, if_neg (by simp [hd])]
  rfl

theorem normalizeGo_interior_run (u0 : List Nat) (c : Nat) (r : List Nat)
    (d : Nat) (v0 : List Nat) (hc : isSpace c = false)
    (hr : ∀ b ∈ r, b = 32 ∨ b = 9) (hd : isSpace d = false) :
    normalizeGo ((u0 ++ [c]) ++ r ++ (d :: v0)) =
      normalizeGo (u0 ++ [c]) ++ r ++ normalizeGo (d :: v0) := by
  have hu : EndsNonWs (u0 ++ [c]) := ⟨u0, c, rfl, hc⟩
  have hrws : ∀ b ∈ r, isSpace b = true ∧ b ≠ 10 := by
    intro b hb
    rcases hr b hb with h32 | h9 <;> subst_vars <;> exact ⟨rfl, by omega⟩
  have hrne10 : ∀ b ∈ r, b ≠ 10 := fun b hb => (hrws b hb).2
  obtain ⟨t, ht⟩ := collapseNN_head d v0
  have hcu : EndsNonWs (collapseNN (u0 ++ [c])) := collapseNN_endsNonWs _ hu
  have hsl : EndsNonWs (stripLeading (collapseNN (u0 ++ [c]))) :=
    stripLeading_endsNonWs _ hcu
  have hsi : EndsNonWs (stripIndentM false (stripLeading (collapseNN (u0 ++ [c])))) :=
    stripIndentM_endsNonWs _ false hsl
  unfold normalizeGo
  rw [List.append_assoc (u0 ++ [c]) r (d :: v0)]
  rw [collapseNN_append _ _ hu, collapseNN_no10_append _ _ hrne10, ht]
  rw [stripLeading_append _ _ hcu]
  unfold stripIndent
  rw [stripIndentM_append _ false _ hsl,
    stripIndentM_no10_append _ _ hrne10,
    stripIndentM_cons_nonWs d t hd]
  unfold joinLines
  rw [joinLinesAux_append _ [] _ hsi,
    joinLinesAux_wsrun r [] d _ hrws (by simp) hd]
  rw [stripLeading_cons_nonWs d t hd, stripIndentM_cons_nonWs d t hd]
  have hjl : joinLinesAux [] (d :: stripIndentM false t) =
      d :: joinLinesAux [] (stripIndentM false t) := by
    rw [joinLinesAux, if_neg (by simp [hd])]
    rfl
  rw [hjl]
  simp

theorem chanRun_inv {α : Type} [DecidableEq α] (items : List α)
    (s : ChanRun α) (h : ChanReach items s) :
    s.cap = items.length ∧
    s.sent = s.received ++ s.buffer ∧
    s.pending.length + s.sent.length = items.length ∧
    (s.pending ++ s.sent).Perm items := by
  induction h with
  | refl => simp [initRun]
  | tail hreach hstep ih =>
    rename_i s2 s3
    obtain ⟨ih1, ih2, ih3, ih4⟩ := ih
    cases hstep with
    | send x hx =>
      have hlen : (s2.pending.erase x).length = s2.pending.length - 1 :=
        List.length_erase_of_mem hx
      have hpos : 0 < s2.pending.length := List.length_pos.mpr
        (List.ne_nil_of_mem hx)
      refine ⟨ih1, ?_, ?_, ?_⟩
      · dsimp only
        rw [ih2, List.append_assoc]
      · dsimp only
        simp only [List.length_append, List.length_cons, List.length_nil, hlen]
        omega
      · dsimp only
        have p1 : (s2.pending.erase x ++ (s2.sent ++ [x])).Perm
            (x :: (s2.pending.erase x ++ s2.sent)) := by
          rw [← List.append_assoc]
          exact List.perm_append_singleton _ _
        have p2 : (x :: (s2.pending.erase x ++ s2.sent)).Perm
            (s2.pending ++ s2.sent) := by
          rw [← List.cons_append]
          exact ((List.perm_cons_erase hx).symm).append_right _
        exact (p1.trans p2).trans ih4
    | recv x rest hb hn =>
      refine ⟨ih1, ?_, ?_, ?_⟩
      · dsimp only
        rw [ih2, hb, List.append_assoc, List.singleton_append]
      · dsimp only
        exact ih3
      · dsimp only
        exact ih4


theorem flatten_replicate_nil (m : Nat) :
    (List.replicate m ([] : List Nat)).flatten = [] := by
  induction m with
  | zero => rfl
  | succ m ih =>
    simp only [List.replicate_succ, List.flatten_cons, List.nil_append]
    exact ih

theorem replicate_set_pred (m : Nat) (x : List Nat) (h : 1 ≤ m) :
    (List.replicate m ([] : List Nat)).set (m - 1) x =
      List.replicate (m - 1) [] ++ [x] := by
  induction m with
  | zero => omega
  | succ m ih =>
    cases m with
    | zero => rfl
    | succ m2 =>
      have h2 : 1 ≤ m2 + 1 := by omega
      simp only [List.replicate_succ, Nat.add_sub_cancel] at *
      simpa [List.set] using ih h2

theorem chunkGoLoop_spec (data : List Nat) :
    ∀ fuel k front,
      front.length = k →
      front.flatten = data.take (70 * k) →
      70 * (k + 1) ≤ data.length →
      k + fuel = 1 + data.length / 70 →
      ∃ g m i2,
        chunkGoLoop data fuel (front ++ List.replicate fuel ([] : List Nat))
            (70 * k) (70 * (k + 1)) k = some (g ++ List.replicate m [], i2) ∧
        1 ≤ m ∧ g.flatten = data.take i2 ∧ i2 ≤ data.length ∧
        g.length + m = 1 + data.length / 70 := by
  intro fuel
  induction fuel with
  | zero =>
    intro k front hlen hflat hle hfuel
    exfalso
    have hk : k + 1 ≤ data.length / 70 := by
      rw [Nat.le_div_iff_mul_le (by norm_num : 0 < 70)]
      omega
    omega
  | succ f ih =>
    intro k front hlen hflat hle hfuel
    have harrlen : (front ++ List.replicate (f + 1) ([] : List Nat)).length
        = k + f + 1 := by
      simp [hlen]
      omega
    have hk : k < (front ++ List.replicate (f + 1) ([] : List Nat)).length := by
      omega
    have hslice : goSlice data (70 * k) (70 * (k + 1)) =
        some ((data.drop (70 * k)).take 70) := by
      have h70 : 70 * (k + 1) - 70 * k = 70 := by omega
      unfold goSlice
      rw [if_pos (by refine ⟨by omega, by omega⟩), h70]
    have hset : (front ++ List.replicate (f + 1) ([] : List Nat)).set k
        ((data.drop (70 * k)).take 70) =
        (front ++ [(data.drop (70 * k)).take 70]) ++ List.replicate f [] := by
      rw [List.set_append, if_neg (by omega)]
      simp [hlen, List.replicate_succ]
    have hflat2 : (front ++ [(data.drop (70 * k)).take 70]).flatten =
        data.take (70 * (k + 1)) := by
      rw [List.flatten_append, hflat]
      have : 70 * (k + 1) = 70 * k + 70 := by ring
      rw [this, List.take_add]
      simp
    unfold chunkGoLoop
    rw [if_pos hk, hslice]
    simp only []
    by_cases hbr : 70 * (k + 1) + 70 ≥ data.length
    · rw [if_pos hbr, hset]
      refine ⟨front ++ [(data.drop (70 * k)).take 70], f, 70 * k + 70, rfl,
        ?_, ?_, by omega, ?_⟩
      · -- 1 ≤ f
        have hk2 : k + 1 ≤ data.length / 70 := by
          rw [Nat.le_div_iff_mul_le (by norm_num : 0 < 70)]
          omega
        omega
      · have : 70 * k + 70 = 70 * (k + 1) := by ring
        rw [this]
        exact hflat2
      · simp [hlen]
        have hk2 : k + 1 ≤ data.length / 70 := by
          rw [Nat.le_div_iff_mul_le (by norm_num : 0 < 70)]
          omega
        omega
    · rw [if_neg hbr, hset]
      have h1 : 70 * k + 70 = 70 * (k + 1) := by ring
      have h2 : 70 * (k + 1) + 70 = 70 * (k + 1 + 1) := by ring
      rw [h1, h2]
      have := ih (k + 1) (front ++ [(data.drop (70 * k)).take 70])
        (by simp [hlen]) hflat2 (by omega) (by omega)
      exact this

theorem chunkGo_flatten (data : List Nat) (h : 70 ≤ data.length) :
    ∃ cs, chunkGo data = some cs ∧ cs.flatten = data := by
  obtain ⟨g, m, i2, hloop, hm, hflat, hi2, hglen⟩ :=
    chunkGoLoop_spec data (1 + data.length / 70) 0 [] rfl (by simp)
      (by omega) (by omega)
  simp only [List.nil_append, Nat.mul_zero, Nat.mul_one, Nat.zero_add] at hloop
  have hglen2 : g.length = 1 + data.length / 70 - m := by omega
  have hslice2 : goSlice data i2 data.length = some (data.drop i2) := by
    unfold goSlice
    rw [if_pos (And.intro hi2 (le_refl data.length))]
    congr 1
    rw [List.take_of_length_le (by simp)]
  have hset2 : (g ++ List.replicate m ([] : List Nat)).set
      (1 + data.length / 70 - 1) (data.drop i2) =
      g ++ (List.replicate (m - 1) [] ++ [data.drop i2]) := by
    rw [List.set_append, if_neg (by omega)]
    congr 1
    have hidx : 1 + data.length / 70 - 1 - g.length = m - 1 := by omega
    rw [hidx, replicate_set_pred m _ hm]
  refine ⟨g ++ (List.replicate (m - 1) [] ++ [data.drop i2]), ?_, ?_⟩
  · unfold chunkGo
    simp only [hloop, hslice2, hset2]
  · simp only [List.flatten_append, flatten_replicate_nil, hflat]
    simp [List.take_append_drop]

set_option maxRecDepth 8000

/-- Claim C1: for a run on `items` (N inputs) the completion channel is
created with capacity N; in every reachable state the enqueue history
equals the dequeue history followed by the buffer contents (FIFO, no
drop, no duplication, no reorder between enqueue and dequeue), each of
the N producers enqueues exactly one result (pending producers plus
enqueues always total N, and pending plus sent is a permutation of the
N results), a pending producer always finds the buffer strictly below
capacity (its enqueue never blocks), and when all producers have sent
and the buffer is drained the collector has performed exactly N
dequeues receiving exactly the enqueued sequence - for N = 0 the
initial state already satisfies this with no dequeues. -/
theorem claim1_channel_discipline {α : Type} [DecidableEq α] (items : List α)
    (s : ChanRun α) (h : ChanReach items s) :
    s.cap = items.length ∧
    s.sent = s.received ++ s.buffer ∧
    s.pending.length + s.sent.length = items.length ∧
    (s.pending ++ s.sent).Perm items ∧
    (s.pending ≠ [] → s.buffer.length < items.length) ∧
    (s.pending = [] → s.buffer = [] →
      s.received = s.sent ∧ s.received.length = items.length) := by
  obtain ⟨h1, h2, h3, h4⟩ := chanRun_inv items s h
  have hsl : s.sent.length = s.received.length + s.buffer.length := by
    rw [h2, List.length_append]
  refine ⟨h1, h2, h3, h4, ?_, ?_⟩
  · intro hp
    have hpos : 0 < s.pending.length := List.length_pos.mpr hp
    omega
  · intro hp hbuf
    rw [hbuf, List.append_nil] at h2
    have hplen : s.pending.length = 0 := by rw [hp]; rfl
    have hrl : s.received.length = s.sent.length := by rw [h2]
    exact ⟨h2.symm, by omega⟩

/-- Witness for claim C1 at the concrete two-input run where producer
one has sent and been collected. -/
theorem claim1_witness :
    (⟨2, [7], [], [5], [5]⟩ : ChanRun Nat).sent =
      (⟨2, [7], [], [5], [5]⟩ : ChanRun Nat).received ++
        (⟨2, [7], [], [5], [5]⟩ : ChanRun Nat).buffer ∧
    (⟨2, [7], [], [5], [5]⟩ : ChanRun Nat).pending.length +
      (⟨2, [7], [], [5], [5]⟩ : ChanRun Nat).sent.length =
      ([5, 7] : List Nat).length := by
  have s1 : ChanStep (initRun ([5, 7] : List Nat)) ⟨2, [7], [5], [5], []⟩ :=
    ChanStep.send (initRun ([5, 7] : List Nat)) 5 (by decide)
  have s2 : ChanStep (⟨2, [7], [5], [5], []⟩ : ChanRun Nat)
      ⟨2, [7], [], [5], [5]⟩ :=
    ChanStep.recv (⟨2, [7], [5], [5], []⟩ : ChanRun Nat) 5 [] rfl (by decide)
  have hreach : ChanReach ([5, 7] : List Nat) ⟨2, [7], [], [5], [5]⟩ :=
    Relation.ReflTransGen.tail (Relation.ReflTransGen.single s1) s2
  have := claim1_channel_discipline [5, 7] ⟨2, [7], [], [5], [5]⟩ hreach
  exact ⟨this.2.1, this.2.2.1⟩

/-- Claim C2 (code bug): for a normalized text whose length is a
positive exact multiple of 70 the chunking step of `formatText` does
emit an empty segment, contrary to the claim: 70 bytes chunk into a
70-byte chunk plus an empty trailing segment, so the joined output
carries a terminator after the last chunk; 140 bytes leave an empty
(never-assigned) segment between the two 70-byte chunks. -/
theorem claim2_empty_segment :
    chunkGo (List.replicate 70 97) = some [List.replicate 70 97, []] ∧
    goJoin [List.replicate 70 97, []] = List.replicate 70 97 ++ [10] ∧
    chunkGo (List.replicate 140 97) =
      some [List.replicate 70 97, [], List.replicate 70 97] := by
  refine ⟨by decide, by decide, by decide⟩

/-- Claim C3 (code bug): the chunking boundary arithmetic of
`formatText` is not total: the first loop iteration evaluates
`data[0:70]` before the break check, so for any normalized text shorter
than 70 bytes (here the empty text and a 2-byte text) the slice bound
70 exceeds the length and the chunking step panics (`none`). -/
theorem claim3_short_text_bounds :
    chunkGo [] = none ∧ chunkGo (strBytes "hi") = none ∧
    formatTextData (strBytes "hi") = none := by
  refine ⟨rfl, rfl, rfl⟩

/-- Claim C4 counterexample: for an input whose normalized text is
shorter than 70 bytes the chunking step panics and emits no chunks at
all, so no concatenation of emitted chunks can reproduce the stream. -/
theorem claim4_counterexample :
    ¬ ∃ cs, chunkGo (strBytes "hi") = some cs ∧ cs.flatten = strBytes "hi" := by
  rintro ⟨cs, hcs, -⟩
  have h : chunkGo (strBytes "hi") = none := rfl
  rw [h] at hcs
  exact Option.noConfusion hcs

/-- Claim C4 (amended): for every input whose normalized text holds at
least 70 bytes, chunking succeeds and concatenating all emitted chunks
in order - i.e. dropping the separators `bytes.Join` would insert -
reproduces the normalized stream byte for byte: nothing is added,
dropped or reordered. -/
theorem claim4_chunk_concat (d : List Nat)
    (h : 70 ≤ (normalizeGo d).length) :
    ∃ cs, chunkGo (normalizeGo d) = some cs ∧ cs.flatten = normalizeGo d :=
  chunkGo_flatten (normalizeGo d) h

/-- Witness for claim C4 at a 70-byte normalized text. -/
theorem claim4_witness :
    70 ≤ (normalizeGo (List.replicate 70 97)).length ∧
    ∃ cs, chunkGo (normalizeGo (List.replicate 70 97)) = some cs ∧
      cs.flatten = normalizeGo (List.replicate 70 97) :=
  ⟨by decide, claim4_chunk_concat (List.replicate 70 97) (by decide)⟩

/-- Claim C5 counterexample: on the three-line example input the four
normalization rewrites do not produce the claimed
`"Hello, world! this is concurrency."`: the final line terminator is
itself rewritten by the `\s*\n -> " "` pass, leaving a trailing
space. -/
theorem claim5_counterexample :
    normalizeGo (strBytes "Hello,\n\n   world!\n  this is   \nconcurrency.\n") ≠
      strBytes "Hello, world! this is concurrency." := by decide

/-- Claim C5 (amended): on the example input the normalization pipeline
yields exactly `"Hello, world! this is concurrency. "` - the claimed
text plus one trailing space produced from the final terminator. -/
theorem claim5_normalization :
    normalizeGo (strBytes "Hello,\n\n   world!\n  this is   \nconcurrency.\n") =
      strBytes "Hello, world! this is concurrency. " := by decide

/-- Claim C6 counterexample: one `\n\n -> \n` pass over `a\n\n\nb`
(a run of three terminators) collapses only the first non-overlapping
pair, leaving `a\n\nb`, which still contains a blank line. -/
theorem claim6_counterexample :
    collapseNN (strBytes "a\n\n\nb") = strBytes "a\n\nb" ∧
    hasBlank (collapseNN (strBytes "a\n\n\nb")) = true := ⟨by decide, by decide⟩

/-- Claim C6 (amended): the single `\n\n -> \n` pass removes all blank
lines exactly for inputs with no run of three or more consecutive
terminators; a longer run leaves adjacent terminators behind. -/
theorem claim6_no_triple_no_blank (l : List Nat)
    (h : hasTripleNL l = false) : hasBlank (collapseNN l) = false :=
  collapseNN_no_blank l h

/-- Witness for claim C6 on an input whose terminator runs have length
two. -/
theorem claim6_witness :
    hasTripleNL (strBytes "a\n\nb\n\nc") = false ∧
    hasBlank (collapseNN (strBytes "a\n\nb\n\nc")) = false :=
  ⟨by decide, claim6_no_triple_no_blank (strBytes "a\n\nb\n\nc") (by decide)⟩

/-- Claim C7: the output path of `writeFormattedText` is derived purely
from the byte length of the formatted content - a result of L bytes
goes to `tmp/L.txt` - so any two results of equal byte length collide
on the same output path. -/
theorem claim7_path_from_length (d1 d2 : List Nat)
    (h : d1.length = d2.length) :
    outPath d1 = "tmp/" ++ toString d1.length ++ ".txt" ∧
    outPath d1 = outPath d2 := by
  refine ⟨rfl, ?_⟩
  unfold outPath
  rw [h]

/-- Witness for claim C7 at two distinct equal-length results. -/
theorem claim7_witness :
    ([1, 2, 3] : List Nat).length = ([7, 8, 9] : List Nat).length ∧
    (outPath [1, 2, 3] = "tmp/" ++ toString ([1, 2, 3] : List Nat).length ++ ".txt" ∧
      outPath [1, 2, 3] = outPath [7, 8, 9]) :=
  ⟨rfl, claim7_path_from_length [1, 2, 3] [7, 8, 9] rfl⟩

/-- Claim C8 counterexample: a task whose read succeeded can still
abort the whole run - a 2-byte input reaches the chunking loop and dies
of the slice-bounds panic, a failure that is not an I/O failure. -/
theorem claim8_counterexample :
    formatText (Except.ok (strBytes "hi")) =
      Except.error RunFailure.boundsPanic := by rfl

/-- Claim C8 (amended): a read failure aborts the run at once,
surfacing the triggering error description, and a write failure aborts
the run likewise, with no retry or partial-success path; a successful
write completes the step; but freedom from non-I/O failures holds only
for inputs whose normalized text has at least 70 bytes - shorter texts
abort via the chunking panic. -/
theorem claim8_failure_modes (e : String) (d : List Nat)
    (h : 70 ≤ (normalizeGo d).length) :
    formatText (Except.error e) = Except.error (RunFailure.ioFailure e) ∧
    (writeFormattedText d (some e)).2 = Except.error e ∧
    (writeFormattedText d none).2 = Except.ok () ∧
    ∃ res, formatText (Except.ok d) = Except.ok res := by
  refine ⟨rfl, rfl, rfl, ?_⟩
  obtain ⟨cs, hcs, -⟩ := chunkGo_flatten (normalizeGo d) h
  have hfd : formatTextData d = some (goJoin cs) := by
    unfold formatTextData
    rw [hcs]
    rfl
  exact ⟨goJoin cs, by simp only [formatText, hfd]⟩

/-- Witness for claim C8 at a concrete error and a 70-byte input. -/
theorem claim8_witness :
    70 ≤ (normalizeGo (List.replicate 70 97)).length ∧
    (formatText (Except.error "boom") =
        Except.error (RunFailure.ioFailure "boom") ∧
      (writeFormattedText (List.replicate 70 97) (some "boom")).2 =
        Except.error "boom" ∧
      (writeFormattedText (List.replicate 70 97) none).2 = Except.ok () ∧
      ∃ res, formatText (Except.ok (List.replicate 70 97)) = Except.ok res) :=
  ⟨by decide, claim8_failure_modes "boom" (List.replicate 70 97) (by decide)⟩

/-- Claim C9 counterexample: on a failing write the console report has
already been emitted - `writeFormattedText` prints the report line
before attempting the write, so a failed write still produces the
report, contrary to the claim. -/
theorem claim9_counterexample :
    (writeFormattedText (strBytes "hi") (some "disk full")).2 =
      Except.error "disk full" ∧
    (writeFormattedText (strBytes "hi") (some "disk full")).1 =
      [OutEvent.consoleReport 2, OutEvent.fileWrite "tmp/2.txt"] := ⟨rfl, rfl⟩

/-- Claim C9 (amended): `writeFormattedText` always emits the console
report (stating the byte length) first and attempts the persist second,
regardless of the write outcome; the step succeeds exactly when the
write does. -/
theorem claim9_report_before_write (d : List Nat) (werr : Option String) :
    (writeFormattedText d werr).1 =
      [OutEvent.consoleReport d.length, OutEvent.fileWrite (outPath d)] ∧
    ((writeFormattedText d werr).2 = Except.ok () ↔ werr = none) := by
  refine ⟨rfl, ?_⟩
  cases werr <;> simp [writeFormattedText, must]

/-- Claim C10 counterexample: in `a  \x0c\nb` the two-space run is not
at the start and its neighbours are `a` and a form feed - no line
terminator adjacent - yet normalization collapses it: the `\s*\n` pass
consumes the spaces together with the form feed and terminator. -/
theorem claim10_counterexample :
    normalizeGo [97, 32, 32, 12, 10, 98] = [97, 32, 98] := by decide

/-- Claim C10 (amended): a run of spaces or tabs that is not at the
very start and whose neighbouring bytes are non-whitespace (stronger
than merely not being terminators, as the counterexample forces) passes
through all four rewrites unchanged: normalization distributes over the
decomposition and keeps the run intact. -/
theorem claim10_interior_run (u0 : List Nat) (c : Nat) (r : List Nat)
    (d : Nat) (v0 : List Nat) (hc : isSpace c = false)
    (hr : ∀ b ∈ r, b = 32 ∨ b = 9) (hd : isSpace d = false) :
    normalizeGo ((u0 ++ [c]) ++ r ++ (d :: v0)) =
      normalizeGo (u0 ++ [c]) ++ r ++ normalizeGo (d :: v0) :=
  normalizeGo_interior_run u0 c r d v0 hc hr hd

/-- Witness for claim C10 at `a  b`: the double space survives. -/
theorem claim10_witness :
    isSpace 97 = false ∧ (∀ b ∈ ([32, 32] : List Nat), b = 32 ∨ b = 9) ∧
    isSpace 98 = false ∧
    normalizeGo (([] ++ [97]) ++ [32, 32] ++ (98 :: [])) =
      normalizeGo ([] ++ [97]) ++ [32, 32] ++ normalizeGo (98 :: []) :=
  ⟨by decide, by decide, by decide,
    claim10_interior_run [] 97 [32, 32] 98 [] (by decide) (by decide) (by decide)⟩
